import Mathlib

/-
Verification of the node-graph compiler and subset extractor of the LTX2
repository (scripts/convert_aio.py and scripts/build_aio_workflows.py).

The two scripts are embedded shallowly:
- JSON-like literal values become the inductive type JVal.
- Python dicts with string keys become association lists together with the
  operations alookup (dict lookup) and upsert (dict assignment, which
  replaces the value at an existing key in place and otherwise appends,
  matching Python dict insertion-order semantics).
- The per-node compile loop of convert_aio.py becomes compileStep and
  compileFold; the whole loop over nodes becomes compileGraph and compile.
- The post-processing of convert_aio.py (UnetLoaderGGUF filename override,
  negative CLIPTextEncode synthesis, the hard-coded set_link calls)
  becomes unetOverride, negSynth, forcedWiring and pipeline.
- The build function of build_aio_workflows.py becomes build (the returned
  map) and buildPost (the state of the input map after the call, since the
  Python code mutates the retained node objects in place).
-/

/-- JSON-like values carried by node inputs and widget arrays. -/
inductive JVal where
  | vnull
  | vbool (b : Bool)
  | vint (n : Int)
  | vstr (s : String)
  | vlist (xs : List JVal)

/-- The reference form produced by the compiler: the two-element array
[str(producer_node_id), producer_slot]. -/
def refVal (s : String) (slot : Int) : JVal :=
  JVal.vlist [JVal.vstr s, JVal.vint slot]

/-- Shape test used by build_aio_workflows.py line 19:
isinstance(val, list) and len(val) == 2 and isinstance(val[0], str). -/
def isRefShape : JVal → Bool
  | JVal.vlist (JVal.vstr _ :: _ :: []) => true
  | _ => false

/-- First element of a reference-shaped value, val[0] in the source. -/
def refProducer : JVal → String
  | JVal.vlist (JVal.vstr s :: _) => s
  | _ => ""

/-- Python dict lookup on an association list with string keys. -/
def alookup {α : Type} : List (String × α) → String → Option α
  | [], _ => none
  | kv :: rest, k => if kv.1 = k then some kv.2 else alookup rest k

/-- Python dict assignment d[k] = v: replace the value at an existing key in
place, otherwise append the new pair, preserving insertion order. -/
def upsert {α : Type} : List (String × α) → String → α → List (String × α)
  | [], k, v => [(k, v)]
  | kv :: rest, k, v => if kv.1 = k then (k, v) :: rest else kv :: upsert rest k v

/-- A compiled node: class_type copied from the raw node type plus the
resolved inputs mapping (build_aio_workflows.py reads the same shape). -/
structure FlatNode where
  class_type : Option String
  inputs : List (String × JVal)

/-- The flattened graph: a mapping from string node id to FlatNode. -/
abbrev FlatGraph : Type := List (String × FlatNode)

/-- Key list of a flattened graph. -/
def flatKeys (p : FlatGraph) : List String := p.map Prod.fst

/-- The filter condition of build_aio_workflows.py lines 19-22: a value that
is a two-element list whose first element is a string survives exactly when
that first element is in the subset; every other value is kept. -/
def keepVal (keep : List String) (v : JVal) : Bool :=
  if isRefShape v then decide (refProducer v ∈ keep) else true

/-- The clean dict built for one retained node
(build_aio_workflows.py lines 17-22). -/
def cleanInputs (keep : List String) (ins : List (String × JVal)) : List (String × JVal) :=
  ins.filter (fun kv => keepVal keep kv.2)

/-- One retained node after its inputs are pruned
(build_aio_workflows.py line 23). -/
def cleanNode (keep : List String) (nd : FlatNode) : FlatNode :=
  { nd with inputs := cleanInputs keep nd.inputs }

/-- The map returned by build(subset, out_path) of build_aio_workflows.py:
the comprehension on line 14 keeps exactly the ids in the subset, and the
loop on lines 15-23 prunes each retained node. -/
def build (flat : FlatGraph) (keep : List String) : FlatGraph :=
  (flat.filter (fun kv => decide (kv.1 ∈ keep))).map (fun kv => (kv.1, cleanNode keep kv.2))

/-- The state of the INPUT map after build(subset, out_path) returns: the
node objects of the comprehension on line 14 are shared with the source
map, so the assignment node['inputs'] = clean on line 23 also rewrites the
retained nodes of the source map in place; nodes outside the subset are
untouched. -/
def buildPost (flat : FlatGraph) (keep : List String) : FlatGraph :=
  flat.map (fun kv => if kv.1 ∈ keep then (kv.1, cleanNode keep kv.2) else kv)

/-- One entry of the links table of convert_aio.py: the raw five-element
array [link_id, producer_id, producer_slot, consumer_id, consumer_slot]. -/
structure Link where
  id : Int
  producer : Int
  slot : Int
  consumer : Int
  cslot : Int

/-- The links dict of convert_aio.py line 11: l[0] keyed, a later duplicate
id overwrites an earlier one, so lookup returns the last match. -/
def lookupLink (ls : List Link) (lid : Int) : Option Link :=
  ls.reverse.find? (fun l => l.id == lid)

/-- One declared input port of a raw node: name, optional link id, and the
widget flag (convert_aio.py lines 38-40). -/
structure RawInput where
  name : String
  link : Option Int
  widget : Bool

/-- The widgets_values field of a raw node: absent, a positional array, or
a keyed mapping (convert_aio.py lines 22, 27, 51, 54). -/
inductive Widgets where
  | wnone
  | wlist (ws : List JVal)
  | wdict (d : List (String × JVal))

/-- isinstance(widgets, list). -/
def Widgets.isList : Widgets → Bool
  | Widgets.wlist _ => true
  | _ => false

/-- A raw graph node (convert_aio.py lines 16-23). -/
structure RawNode where
  id : Int
  type : Option String
  inputs : List RawInput
  widgets : Widgets

/-- The raw graph document: the nodes array and the links array. -/
structure RawGraph where
  nodes : List RawNode
  links : List Link

/-- The KSampler widget mapping of convert_aio.py lines 28-35, in source
order, each entry widgets[i] if len(widgets) > i else default. -/
def ksMapping (ws : List JVal) : List (String × JVal) :=
  [("seed", ws.getD 0 (JVal.vint 0)),
   ("steps", ws.getD 2 (JVal.vint 4)),
   ("cfg", ws.getD 3 (JVal.vint 5)),
   ("sampler_name", ws.getD 4 (JVal.vstr "euler")),
   ("scheduler", ws.getD 5 (JVal.vstr "beta")),
   ("denoise", ws.getD 6 (JVal.vint 1))]

/-- The mapping variable of convert_aio.py lines 26-35: set only when the
node type is KSampler and widgets_values is a list. -/
def nodeMapping (n : RawNode) : Option (List (String × JVal)) :=
  match n.type, n.widgets with
  | some t, Widgets.wlist ws => if t = "KSampler" then some (ksMapping ws) else none
  | _, _ => none

/-- One iteration of the input loop of convert_aio.py lines 37-57, acting on
the pair (entry inputs so far, widget_idx). Returns none exactly when the
declared link id is absent from the links table (the KeyError on line 40). -/
def compileStep (links : List Link) (mapping : Option (List (String × JVal)))
    (widgets : Widgets) (st : List (String × JVal) × Nat) (inp : RawInput) :
    Option (List (String × JVal) × Nat) :=
  match inp.link with
  | some lid =>
      match lookupLink links lid with
      | none => none
      | some l =>
          some (upsert st.1 inp.name (refVal (toString l.producer) l.slot),
                if inp.widget && widgets.isList then st.2 + 1 else st.2)
  | none =>
      if inp.widget then
        match mapping.bind (fun m => alookup m inp.name) with
        | some v => some (upsert st.1 inp.name v, st.2)
        | none =>
            match widgets with
            | Widgets.wdict d =>
                match alookup d inp.name with
                | some v => some (upsert st.1 inp.name v, st.2)
                | none => some st
            | Widgets.wlist ws =>
                some ((if st.2 < ws.length then upsert st.1 inp.name (ws.getD st.2 JVal.vnull)
                       else st.1), st.2 + 1)
            | Widgets.wnone => some st
      else some st

/-- The input loop of convert_aio.py lines 37-57 over a list of declared
inputs, threading (entry inputs, widget_idx); an unresolvable link aborts. -/
def compileFold (links : List Link) (mapping : Option (List (String × JVal)))
    (widgets : Widgets) : List RawInput → (List (String × JVal) × Nat) →
    Option (List (String × JVal) × Nat)
  | [], st => some st
  | inp :: rest, st =>
      match compileStep links mapping widgets st inp with
      | none => none
      | some st' => compileFold links mapping widgets rest st'

/-- Compilation of one raw node (convert_aio.py lines 15-57): the entry with
class_type node.get('type') and the resolved inputs. -/
def compileNode (links : List Link) (n : RawNode) : Option FlatNode :=
  (compileFold links (nodeMapping n) n.widgets n.inputs ([], 0)).map
    (fun st => { class_type := n.type, inputs := st.1 })

/-- The loop over nodes of convert_aio.py lines 15-59 building the prompt
dict; a failing node aborts the whole compilation with no partial output. -/
def compileGraph (links : List Link) : List RawNode → FlatGraph → Option FlatGraph
  | [], acc => some acc
  | n :: rest, acc =>
      match compileNode links n with
      | none => none
      | some e => compileGraph links rest (upsert acc (toString n.id) e)

/-- compile(raw_graph): the base flattening pass of convert_aio.py. -/
def compile (g : RawGraph) : Option FlatGraph :=
  compileGraph g.links g.nodes []

/-- True when every declared link id of every node input is present in the
links table; compilation succeeds exactly on such graphs. -/
def linkResolvable (g : RawGraph) : Bool :=
  g.nodes.all (fun n => n.inputs.all (fun inp =>
    inp.link.all (fun lid => (lookupLink g.links lid).isSome)))

/-- The UnetLoaderGGUF filename override of convert_aio.py lines 62-65:
for every node of that class whose inputs hold the key unet_name, the
literal is replaced. -/
def unetOverride (p : FlatGraph) : FlatGraph :=
  p.map (fun kv =>
    if kv.2.class_type = some "UnetLoaderGGUF" ∧ (alookup kv.2.inputs "unet_name").isSome = true then
      (kv.1, { kv.2 with
               inputs := upsert kv.2.inputs "unet_name" (JVal.vstr "wan2.2-rapid-mega-aio-nsfw-v12.1-Q8_0.gguf") })
    else kv)

/-- max(int(n['id']) for n in nodes) of convert_aio.py line 68; none on an
empty nodes list, where Python raises ValueError. -/
def maxId? (nodes : List RawNode) : Option Int :=
  match nodes with
  | [] => none
  | n :: rest => some (rest.foldl (fun acc m => max acc m.id) n.id)

/-- The CLIPLoader search of convert_aio.py lines 71-75: the first key of
the prompt whose node has class_type CLIPLoader. -/
def findClipLoader (p : FlatGraph) : Option String :=
  (p.find? (fun kv => kv.2.class_type == some "CLIPLoader")).map Prod.fst

/-- The negative CLIPTextEncode synthesis of convert_aio.py lines 77-84:
when a CLIPLoader exists, a new node keyed by the fresh id is inserted,
wired to that loader. -/
def negSynth (p : FlatGraph) (negId : String) : FlatGraph :=
  match findClipLoader p with
  | some cid =>
      upsert p negId
        { class_type := some "CLIPTextEncode",
          inputs := [("clip", refVal cid 0), ("text", JVal.vstr "")] }
  | none => p

/-- set_link of convert_aio.py lines 88-92: a no-op when the target node id
is absent; otherwise the named input of the target is set to the reference
[str(src_id), src_slot], in place. -/
def set_link (p : FlatGraph) (node_id input_name src_id : String) (src_slot : Int) : FlatGraph :=
  match alookup p node_id with
  | none => p
  | some nd => upsert p node_id { nd with inputs := upsert nd.inputs input_name (refVal src_id src_slot) }

/-- The hard-coded explicit wiring of convert_aio.py lines 94-110, in
source order. -/
def forcedWiring (p : FlatGraph) (negId : String) : FlatGraph :=
  let p1 := set_link p "8" "model" "32" 0
  let p2 := set_link p1 "55" "model" "32" 0
  let p3 := set_link p2 "28" "vae" "53" 0
  let p4 := set_link p3 "54" "vae" "53" 0
  let p5 := set_link p4 "11" "vae" "53" 0
  let p6 := set_link p5 "56" "vae" "53" 0
  let p7 := set_link p6 "28" "positive" "9" 0
  let p8 := set_link p7 "54" "positive" "9" 0
  let p9 := set_link p8 "28" "negative" negId 0
  set_link p9 "54" "negative" negId 0

/-- The convert_aio.py pipeline up to but not including the forced wiring:
compile, UnetLoaderGGUF override, fresh id allocation, negative node
synthesis. Returns the map together with the fresh id. -/
def pipelinePreWire (g : RawGraph) : Option (FlatGraph × String) := do
  let p ← compile g
  let m ← maxId? g.nodes
  let negId := toString (m + 1)
  pure (negSynth (unetOverride p) negId, negId)

/-- The full convert_aio.py pipeline: compile, override, synthesis, forced
wiring; the written prompt document. -/
def pipeline (g : RawGraph) : Option FlatGraph :=
  (pipelinePreWire g).map (fun pr => forcedWiring pr.1 pr.2)

/-- True when every reference-shaped input value of the map names a producer
that is a key of the map. -/
def noDanglingFlat (p : FlatGraph) : Bool :=
  p.all (fun kv => kv.2.inputs.all (fun iv =>
    !isRefShape iv.2 || decide (refProducer iv.2 ∈ flatKeys p)))

/-- True when no widget literal of the node is itself reference-shaped. -/
def widgetsNoRef : Widgets → Bool
  | Widgets.wlist ws => ws.all (fun v => !isRefShape v)
  | Widgets.wdict d => d.all (fun kv => !isRefShape kv.2)
  | Widgets.wnone => true

/-! Concrete inputs used by counterexamples and witnesses. -/

/-- A flattened map whose node 1 references node 2. -/
def mutFlat : FlatGraph :=
  [("1", { class_type := some "A", inputs := [("x", refVal "2" 0)] }),
   ("2", { class_type := some "B", inputs := [] })]

/-- A flattened map whose retained nodes reference only retained nodes. -/
def wFlat : FlatGraph :=
  [("1", { class_type := some "A", inputs := [("x", refVal "2" 0), ("lit", JVal.vint 7)] }),
   ("2", { class_type := some "B", inputs := [] })]

/-- A flattened map holding a reference to an id absent from the map. -/
def dangFlat : FlatGraph :=
  [("1", { class_type := some "A", inputs := [("x", refVal "2" 0)] })]

/-- A node with one reference and one literal input. -/
def nd4 : FlatNode :=
  { class_type := some "C", inputs := [("r", refVal "6" 1), ("k", JVal.vstr "v")] }

/-- A closed flattened map with one reference and one literal. -/
def wFlat4 : FlatGraph :=
  [("5", nd4), ("6", { class_type := some "D", inputs := [] })]

/-- A three-node flattened map for the monotonicity witness. -/
def wFlat5 : FlatGraph :=
  [("1", { class_type := some "A", inputs := [("x", refVal "2" 0)] }),
   ("2", { class_type := some "B", inputs := [("y", refVal "3" 0)] }),
   ("3", { class_type := some "C", inputs := [] })]

/-- A KSampler raw node with one widget input not covered by the override
mapping, and a positional widget array of length two. -/
def ksCexNode : RawNode :=
  { id := 1, type := some "KSampler",
    inputs := [{ name := "seed", link := none, widget := true },
               { name := "extra", link := none, widget := true }],
    widgets := Widgets.wlist [JVal.vint 100, JVal.vint 200] }

/-- A non-KSampler raw node with a linked widget port followed by an
unlinked widget port, and a widget array covering both positions. -/
def posNode : RawNode :=
  { id := 2, type := some "TypeX",
    inputs := [{ name := "a", link := some 1, widget := true },
               { name := "b", link := none, widget := true }],
    widgets := Widgets.wlist [JVal.vint 7, JVal.vint 8] }

/-- The links table for posNode. -/
def posLinks : List Link :=
  [{ id := 1, producer := 5, slot := 0, consumer := 2, cslot := 0 }]

/-- A raw graph holding one node with the id 28 and nothing else: its link
table is trivially complete, yet the forced wiring targets id 28. -/
def g28 : RawGraph :=
  { nodes := [{ id := 28, type := some "T", inputs := [], widgets := Widgets.wnone }],
    links := [] }

/-- The prompt document the pipeline produces from g28. -/
def p28 : FlatGraph :=
  [("28", { class_type := some "T",
            inputs := [("vae", refVal "53" 0), ("positive", refVal "9" 0),
                       ("negative", refVal "29" 0)] })]

/-- The concrete two-node raw graph of the specification scenario. -/
def g9 : RawGraph :=
  { nodes :=
      [{ id := 1, type := some "TypeA",
         inputs := [{ name := "x", link := none, widget := true }],
         widgets := Widgets.wlist [JVal.vint 5] },
       { id := 2, type := some "TypeB",
         inputs := [{ name := "y", link := some 10, widget := false }],
         widgets := Widgets.wnone }],
    links := [{ id := 10, producer := 1, slot := 0, consumer := 2, cslot := 0 }] }

/-- The flattened form of g9. -/
def flat9 : FlatGraph :=
  [("1", { class_type := some "TypeA", inputs := [("x", JVal.vint 5)] }),
   ("2", { class_type := some "TypeB", inputs := [("y", refVal "1" 0)] })]

/-- The consumer node of the well-formed compilation witness, reading the
link with id 7. -/
def nodeQ : RawNode :=
  { id := 4, type := some "Q",
    inputs := [{ name := "in", link := some 7, widget := false }],
    widgets := Widgets.wnone }

/-- A two-node raw graph with one resolvable link, used as the well-formed
compilation witness. -/
def gW6 : RawGraph :=
  { nodes := [{ id := 3, type := some "P", inputs := [], widgets := Widgets.wnone }, nodeQ],
    links := [{ id := 7, producer := 3, slot := 2, consumer := 4, cslot := 0 }] }

/-- A raw graph declaring the link id 99 that the empty links table lacks. -/
def gB6 : RawGraph :=
  { nodes :=
      [{ id := 1, type := some "P",
         inputs := [{ name := "in", link := some 99, widget := false }],
         widgets := Widgets.wnone }],
    links := [] }

/-- A one-node flattened map for the set_link witness. -/
def wP7 : FlatGraph :=
  [("10", { class_type := some "E", inputs := [("old", JVal.vint 1)] })]

/-- A KSampler raw node carrying the six override-covered widget inputs and
a widget array long enough for seed only. -/
def ksW8 : RawNode :=
  { id := 9, type := some "KSampler",
    inputs := [{ name := "seed", link := none, widget := true },
               { name := "steps", link := none, widget := true },
               { name := "cfg", link := none, widget := true },
               { name := "sampler_name", link := none, widget := true },
               { name := "scheduler", link := none, widget := true },
               { name := "denoise", link := none, widget := true }],
    widgets := Widgets.wlist [JVal.vint 42] }

/-- The flattened node the compiler produces from ksW8. -/
def e8 : FlatNode :=
  { class_type := some "KSampler",
    inputs := [("seed", JVal.vint 42), ("steps", JVal.vint 4), ("cfg", JVal.vint 5),
               ("sampler_name", JVal.vstr "euler"), ("scheduler", JVal.vstr "beta"),
               ("denoise", JVal.vint 1)] }

/-- An inputs dict with a reference, a two-element list that is not a
reference, and a plain literal. -/
def ins10 : List (String × JVal) :=
  [("x", refVal "2" 0), ("y", JVal.vlist [JVal.vint 1, JVal.vint 2]), ("z", JVal.vint 3)]

/-- A well-formed raw graph for the pre-wiring no-dangling witness. -/
def gW3 : RawGraph :=
  { nodes :=
      [{ id := 1, type := some "CLIPLoader", inputs := [], widgets := Widgets.wnone },
       { id := 2, type := some "TypeB",
         inputs := [{ name := "y", link := some 10, widget := false }],
         widgets := Widgets.wnone }],
    links := [{ id := 10, producer := 1, slot := 0, consumer := 2, cslot := 0 }] }

/-! Association list lemmas. -/

theorem alookup_upsert_self {α : Type} (m : List (String × α)) (k : String) (v : α) :
    alookup (upsert m k v) k = some v := by
  induction m with
  | nil => simp [upsert, alookup]
  | cons kv rest ih =>
      by_cases h : kv.1 = k
      · simp [upsert, h, alookup]
      · simp [upsert, h, alookup, ih]


theorem alookup_upsert_ne {α : Type} (m : List (String × α)) (k k' : String) (v : α)
    (h : k' ≠ k) : alookup (upsert m k v) k' = alookup m k' := by
  have hk : ¬(k = k') := Ne.symm h
  induction m with
  | nil => simp [upsert, alookup, hk]
  | cons kv rest ih =>
      by_cases h1 : kv.1 = k
      · have h2 : ¬(kv.1 = k') := by rw [h1]; exact hk
        simp [upsert, h1, alookup, hk, h2]
      · simp [upsert, h1, alookup, ih]

theorem mem_upsert {α : Type} (m : List (String × α)) (k : String) (v : α) (x : String × α)
    (h : x ∈ upsert m k v) : x ∈ m ∨ x = (k, v) := by
  induction m with
  | nil => simpa [upsert] using h
  | cons kv rest ih =>
      by_cases hk : kv.1 = k
      · simp [upsert, hk] at h
        rcases h with h | h
        · right; exact h
        · left; exact List.mem_cons_of_mem _ h
      · simp [upsert, hk] at h
        rcases h with h | h
        · left; rw [h]; exact List.mem_cons_self _ _
        · rcases ih h with h' | h'
          · left; exact List.mem_cons_of_mem _ h'
          · right; exact h'

theorem mem_keys_upsert {α : Type} (m : List (String × α)) (k k' : String) (v : α) :
    k' ∈ (upsert m k v).map Prod.fst ↔ k' ∈ m.map Prod.fst ∨ k' = k := by
  induction m with
  | nil => simp [upsert]
  | cons kv rest ih =>
      by_cases h1 : kv.1 = k
      · subst h1
        simp [upsert]
        tauto
      · simp [upsert, h1, List.map_cons, List.mem_cons, ih]
        tauto

theorem alookup_mem {α : Type} (m : List (String × α)) (k : String) (v : α)
    (h : alookup m k = some v) : (k, v) ∈ m := by
  induction m with
  | nil => simp [alookup] at h
  | cons kv rest ih =>
      by_cases hk : kv.1 = k
      · simp [alookup, hk] at h
        have hkv : (k, v) = kv := by rw [← hk, ← h]
        rw [hkv]
        exact List.mem_cons_self _ _
      · simp [alookup, hk] at h
        exact List.mem_cons_of_mem _ (ih h)

theorem alookup_isSome_iff {α : Type} (m : List (String × α)) (k : String) :
    (alookup m k).isSome = true ↔ k ∈ m.map Prod.fst := by
  induction m with
  | nil => simp [alookup]
  | cons kv rest ih =>
      by_cases hk : kv.1 = k
      · simp [alookup, hk]
      · simp only [alookup, hk, if_false, List.map_cons, List.mem_cons, ih]
        constructor
        · intro hh; right; exact hh
        · intro hh
          rcases hh with hh | hh
          · exact absurd hh.symm hk
          · exact hh

theorem alookup_eq_none_of_not_mem {α : Type} (m : List (String × α)) (k : String)
    (h : k ∉ m.map Prod.fst) : alookup m k = none := by
  induction m with
  | nil => rfl
  | cons kv rest ih =>
      simp only [List.map_cons, List.mem_cons, not_or] at h
      simp [alookup, Ne.symm h.1, ih h.2]

/-! Reference shape lemmas. -/

theorem isRefShape_refVal (s : String) (n : Int) : isRefShape (refVal s n) = true := rfl

theorem refProducer_refVal (s : String) (n : Int) : refProducer (refVal s n) = s := rfl

theorem isRefShape_iff (v : JVal) :
    isRefShape v = true ↔ ∃ s w, v = JVal.vlist [JVal.vstr s, w] := by
  cases v with
  | vnull => simp [isRefShape]
  | vbool b => simp [isRefShape]
  | vint n => simp [isRefShape]
  | vstr s => simp [isRefShape]
  | vlist xs =>
      rcases xs with _ | ⟨a, _ | ⟨b, _ | ⟨c, t⟩⟩⟩
      · simp [isRefShape]
      · cases a <;> simp [isRefShape]
      · cases a <;> simp [isRefShape]
      · cases a <;> simp [isRefShape]

theorem keepVal_of_not_ref (keep : List String) (v : JVal) (h : isRefShape v = false) :
    keepVal keep v = true := by
  simp [keepVal, h]

theorem keepVal_refVal (keep : List String) (s : String) (n : Int) :
    keepVal keep (refVal s n) = decide (s ∈ keep) := rfl

theorem keepVal_mono (k1 k2 : List String) (v : JVal) (hsub : ∀ x ∈ k2, x ∈ k1)
    (h : keepVal k2 v = true) : keepVal k1 v = true := by
  by_cases hr : isRefShape v = true
  · simp [keepVal, hr] at h ⊢
    exact hsub _ h
  · have hr' : isRefShape v = false := by simpa using hr
    simp [keepVal, hr']

/-! Extractor lemmas. -/

theorem build_cons (kv : String × FlatNode) (flat : FlatGraph) (keep : List String) :
    build (kv :: flat) keep =
      if kv.1 ∈ keep then (kv.1, cleanNode keep kv.2) :: build flat keep else build flat keep := by
  by_cases h : kv.1 ∈ keep <;> simp [build, List.filter_cons, h]

theorem buildPost_cons (kv : String × FlatNode) (flat : FlatGraph) (keep : List String) :
    buildPost (kv :: flat) keep =
      (if kv.1 ∈ keep then (kv.1, cleanNode keep kv.2) else kv) :: buildPost flat keep := by
  simp [buildPost]

theorem cleanInputs_compose (k1 k2 : List String) (ins : List (String × JVal))
    (hsub : ∀ x ∈ k2, x ∈ k1) :
    cleanInputs k2 (cleanInputs k1 ins) = cleanInputs k2 ins := by
  induction ins with
  | nil => rfl
  | cons kv rest ih =>
      by_cases h2 : keepVal k2 kv.2 = true
      · have h1 : keepVal k1 kv.2 = true := keepVal_mono k1 k2 _ hsub h2
        simp [cleanInputs, List.filter_cons, h1, h2] at ih ⊢
        exact ih
      · by_cases h1 : keepVal k1 kv.2 = true
        · simp [cleanInputs, List.filter_cons, h1, h2] at ih ⊢
          exact ih
        · simp [cleanInputs, List.filter_cons, h1, h2] at ih ⊢
          exact ih

theorem cleanNode_compose (k1 k2 : List String) (nd : FlatNode) (hsub : ∀ x ∈ k2, x ∈ k1) :
    cleanNode k2 (cleanNode k1 nd) = cleanNode k2 nd := by
  simp [cleanNode, cleanInputs_compose k1 k2 nd.inputs hsub]

theorem buildPost_map_fst (flat : FlatGraph) (keep : List String) :
    (buildPost flat keep).map Prod.fst = flat.map Prod.fst := by
  induction flat with
  | nil => rfl
  | cons kv rest ih =>
      rw [buildPost_cons]
      by_cases h : kv.1 ∈ keep <;> simp [h, ih]

theorem buildPost_map_class (flat : FlatGraph) (keep : List String) :
    (buildPost flat keep).map (fun kv => (kv.1, kv.2.class_type)) =
      flat.map (fun kv => (kv.1, kv.2.class_type)) := by
  induction flat with
  | nil => rfl
  | cons kv rest ih =>
      rw [buildPost_cons]
      by_cases h : kv.1 ∈ keep <;> simp [h, ih, cleanNode]

theorem alookup_buildPost_not_mem (flat : FlatGraph) (keep : List String) (i : String)
    (h : i ∉ keep) : alookup (buildPost flat keep) i = alookup flat i := by
  induction flat with
  | nil => rfl
  | cons kv rest ih =>
      rw [buildPost_cons]
      by_cases hk : kv.1 ∈ keep
      · have hne : ¬(kv.1 = i) := fun hh => h (hh ▸ hk)
        simp [hk, alookup, hne, ih]
      · by_cases he : kv.1 = i
        · subst he
          simp [hk, alookup]
        · simp [hk, alookup, he, ih]

theorem alookup_buildPost_mem (flat : FlatGraph) (keep : List String) (i : String)
    (h : i ∈ keep) : alookup (buildPost flat keep) i = alookup (build flat keep) i := by
  induction flat with
  | nil => rfl
  | cons kv rest ih =>
      rw [buildPost_cons, build_cons]
      by_cases hk : kv.1 ∈ keep
      · by_cases he : kv.1 = i
        · subst he
          simp [hk, alookup]
        · simp [hk, alookup, he, ih]
      · have hne : ¬(kv.1 = i) := fun hh => hk (hh ▸ h)
        simp [hk, alookup, hne, ih]

theorem buildPost_eq_self (flat : FlatGraph) (keep : List String)
    (h : ∀ kv ∈ flat, kv.1 ∈ keep → ∀ iv ∈ kv.2.inputs, keepVal keep iv.2 = true) :
    buildPost flat keep = flat := by
  induction flat with
  | nil => rfl
  | cons kv rest ih =>
      have hrest := ih (fun kv' hm => h kv' (List.mem_cons_of_mem _ hm))
      rw [buildPost_cons, hrest]
      by_cases hk : kv.1 ∈ keep
      · have hcl : cleanInputs keep kv.2.inputs = kv.2.inputs :=
          List.filter_eq_self.mpr (fun iv hm => h kv (List.mem_cons_self _ _) hk iv hm)
        simp [hk, cleanNode, hcl]
      · simp [hk]

theorem mem_build (flat : FlatGraph) (keep : List String) (kv : String × FlatNode)
    (h : kv ∈ build flat keep) :
    ∃ kv0, kv0 ∈ flat ∧ kv0.1 ∈ keep ∧ kv = (kv0.1, cleanNode keep kv0.2) := by
  simp only [build, List.mem_map, List.mem_filter] at h
  rcases h with ⟨kv0, ⟨hmem, hkeep⟩, heq⟩
  exact ⟨kv0, hmem, by simpa using hkeep, heq.symm⟩

theorem build_map_fst (flat : FlatGraph) (keep : List String) :
    (build flat keep).map Prod.fst = (flat.map Prod.fst).filter (fun i => decide (i ∈ keep)) := by
  induction flat with
  | nil => rfl
  | cons kv rest ih =>
      rw [build_cons]
      by_cases h : kv.1 ∈ keep <;> simp [h, ih, List.filter_cons]

/-! Claims about the subset extractor. -/

/-- C1 counterexample: build does NOT leave its input unchanged. In mutFlat
the retained node 1 holds the inputs entry x referencing node 2; after
extraction with keep = ["1"], the node object shared with the input map has
lost that entry, so the source map no longer has the inputs entries it had
before the call. -/
theorem extract_mutates_input_cex :
    alookup mutFlat "1" = some { class_type := some "A", inputs := [("x", refVal "2" 0)] }
    ∧ alookup (buildPost mutFlat ["1"]) "1" = some { class_type := some "A", inputs := [] }
    ∧ ([("x", refVal "2" 0)] : List (String × JVal)) ≠ [] :=
  ⟨rfl, rfl, List.cons_ne_nil _ _⟩

/-- C1 (amended): subset extraction returns a fresh top-level map, and after
the call the input map still has exactly its node keys and class_type
values, and nodes outside the keep set are untouched; but each retained
node is mutated in place to the pruned node of the output (its Reference
entries to producers outside keep are removed), and the input is left
entirely unchanged only when every retained node passes the keep filter on
all its inputs. -/
theorem extract_post_state (flat : FlatGraph) (keep : List String) :
    ((buildPost flat keep).map Prod.fst = flat.map Prod.fst)
    ∧ ((buildPost flat keep).map (fun kv => (kv.1, kv.2.class_type)) =
        flat.map (fun kv => (kv.1, kv.2.class_type)))
    ∧ (∀ i, i ∉ keep → alookup (buildPost flat keep) i = alookup flat i)
    ∧ (∀ i, i ∈ keep → alookup (buildPost flat keep) i = alookup (build flat keep) i)
    ∧ ((∀ kv ∈ flat, kv.1 ∈ keep → ∀ iv ∈ kv.2.inputs, keepVal keep iv.2 = true) →
        buildPost flat keep = flat) :=
  ⟨buildPost_map_fst flat keep,
   buildPost_map_class flat keep,
   fun i h => alookup_buildPost_not_mem flat keep i h,
   fun i h => alookup_buildPost_mem flat keep i h,
   fun h => buildPost_eq_self flat keep h⟩

/-- C1 witness: on wFlat, whose retained references all stay inside the
keep set, the amended theorem evaluates concretely. -/
theorem extract_post_state_witness :
    alookup (buildPost wFlat ["1", "2"]) "9" = alookup wFlat "9"
    ∧ alookup (buildPost wFlat ["1", "2"]) "1" = alookup (build wFlat ["1", "2"]) "1"
    ∧ buildPost wFlat ["1", "2"] = wFlat :=
  ⟨(extract_post_state wFlat ["1", "2"]).2.2.1 "9" (by decide),
   (extract_post_state wFlat ["1", "2"]).2.2.2.1 "1" (by decide),
   (extract_post_state wFlat ["1", "2"]).2.2.2.2 (by decide)⟩

/-- C4 counterexample: with keep = ["1", "2"] on dangFlat, whose only node 1
references the id 2 absent from the map, the extraction keeps the
reference (its producer is in keep) although the producer is not a key of
the result, so the result contains a dangling reference. -/
theorem extract_dangling_cex :
    build dangFlat ["1", "2"] = [("1", { class_type := some "A", inputs := [("x", refVal "2" 0)] })]
    ∧ isRefShape (refVal "2" 0) = true
    ∧ refProducer (refVal "2" 0) = "2"
    ∧ "2" ∉ flatKeys (build dangFlat ["1", "2"]) :=
  ⟨rfl, rfl, rfl, by decide⟩

/-- C4 (amended): the key list of the extraction result is exactly the keys
of flat restricted to keep; every reference surviving extraction has its
producer in the keep set, and has it among the result keys provided flat
itself holds no dangling reference; literal inputs of retained nodes
survive unmodified. -/
theorem extract_soundness (flat : FlatGraph) (keep : List String) :
    ((build flat keep).map Prod.fst = (flat.map Prod.fst).filter (fun i => decide (i ∈ keep)))
    ∧ (∀ kv ∈ build flat keep, ∀ iv ∈ kv.2.inputs, isRefShape iv.2 = true →
        refProducer iv.2 ∈ keep)
    ∧ ((∀ kv ∈ flat, ∀ iv ∈ kv.2.inputs, isRefShape iv.2 = true →
          refProducer iv.2 ∈ flatKeys flat) →
        ∀ kv ∈ build flat keep, ∀ iv ∈ kv.2.inputs, isRefShape iv.2 = true →
          refProducer iv.2 ∈ flatKeys (build flat keep))
    ∧ (∀ kv ∈ flat, kv.1 ∈ keep → ∀ iv ∈ kv.2.inputs, isRefShape iv.2 = false →
        ∃ kv', kv' ∈ build flat keep ∧ kv'.1 = kv.1 ∧ iv ∈ kv'.2.inputs) := by
  refine ⟨build_map_fst flat keep, ?_, ?_, ?_⟩
  · intro kv hkv iv hiv href
    rcases mem_build flat keep kv hkv with ⟨kv0, hmem, hkeep, heq⟩
    subst heq
    simp only [cleanNode, cleanInputs, List.mem_filter] at hiv
    have h2 := hiv.2
    simpa [keepVal, href] using h2
  · intro hclosed kv hkv iv hiv href
    rcases mem_build flat keep kv hkv with ⟨kv0, hmem, hkeep, heq⟩
    have hkv' := hkv
    rw [heq] at hkv'
    subst heq
    simp only [cleanNode, cleanInputs, List.mem_filter] at hiv
    have hinkeep : refProducer iv.2 ∈ keep := by simpa [keepVal, href] using hiv.2
    have hinflat : refProducer iv.2 ∈ flatKeys flat := hclosed kv0 hmem iv hiv.1 href
    show refProducer iv.2 ∈ (build flat keep).map Prod.fst
    rw [build_map_fst]
    exact List.mem_filter.mpr ⟨hinflat, by simpa using hinkeep⟩
  · intro kv hkv hkeep iv hiv hnotref
    refine ⟨(kv.1, cleanNode keep kv.2), ?_, rfl, ?_⟩
    · exact List.mem_map.mpr ⟨kv, List.mem_filter.mpr ⟨hkv, by simpa using hkeep⟩, rfl⟩
    · simp only [cleanNode, cleanInputs, List.mem_filter]
      exact ⟨hiv, keepVal_of_not_ref keep iv.2 hnotref⟩

/-- C4 witness: concrete evaluation on wFlat4, where node 5 references the
retained node 6 and also carries a literal. -/
theorem extract_soundness_witness :
    refProducer (refVal "6" 1) ∈ ["5", "6"]
    ∧ refProducer (refVal "6" 1) ∈ flatKeys (build wFlat4 ["5", "6"])
    ∧ ∃ kv', kv' ∈ build wFlat4 ["5", "6"] ∧ kv'.1 = "5" ∧ ("k", JVal.vstr "v") ∈ kv'.2.inputs := by
  have hm5 : ("5", nd4) ∈ wFlat4 := List.mem_cons_self _ _
  have hr : ("r", refVal "6" 1) ∈ nd4.inputs := List.mem_cons_self _ _
  have hk : ("k", JVal.vstr "v") ∈ nd4.inputs :=
    List.mem_cons_of_mem _ (List.mem_cons_self _ _)
  have hbm : ("5", cleanNode ["5", "6"] nd4) ∈ build wFlat4 ["5", "6"] :=
    List.mem_map.mpr ⟨_, List.mem_filter.mpr ⟨hm5, by decide⟩, rfl⟩
  have hrm : ("r", refVal "6" 1) ∈ (cleanNode ["5", "6"] nd4).inputs := List.mem_cons_self _ _
  refine ⟨?_, ?_, ?_⟩
  · exact (extract_soundness wFlat4 ["5", "6"]).2.1 _ hbm _ hrm rfl
  · exact (extract_soundness wFlat4 ["5", "6"]).2.2.1 (by decide) _ hbm _ hrm rfl
  · exact (extract_soundness wFlat4 ["5", "6"]).2.2.2 _ hm5 (by decide) _ hk rfl

/-- C5: subset extraction is monotone under nested keep sets; extracting
with the smaller set equals extracting with the larger set first and then
the smaller one. -/
theorem extract_monotone (flat : FlatGraph) (keep1 keep2 : List String)
    (hsub : ∀ x ∈ keep2, x ∈ keep1) :
    build flat keep2 = build (build flat keep1) keep2 := by
  induction flat with
  | nil => rfl
  | cons kv rest ih =>
      rw [build_cons, build_cons]
      by_cases h1 : kv.1 ∈ keep1
      · rw [if_pos h1, build_cons]
        by_cases h2 : kv.1 ∈ keep2
        · simp only [if_pos h2]
          rw [ih, cleanNode_compose keep1 keep2 kv.2 hsub]
        · simp only [if_neg h2]
          exact ih
      · have h2 : kv.1 ∉ keep2 := fun hh => h1 (hsub _ hh)
        rw [if_neg h2, if_neg h1]
        exact ih

/-- C5 witness: concrete evaluation with keep2 = ["2"] nested in
keep1 = ["1", "2"] on the three-node map wFlat5. -/
theorem extract_monotone_witness :
    build wFlat5 ["2"] = build (build wFlat5 ["1", "2"]) ["2"] :=
  extract_monotone wFlat5 ["1", "2"] ["2"] (by decide)

/-- C10: the extractor classifies an input as a reference purely by shape.
A two-element list whose first element is a string survives exactly when
that first element is in the keep set, whatever the second element is; a
value of any other shape always survives. -/
theorem reference_shape_detection (keep : List String) (ins : List (String × JVal))
    (k : String) (v : JVal) (hmem : (k, v) ∈ ins) :
    (∀ s w, v = JVal.vlist [JVal.vstr s, w] → ((k, v) ∈ cleanInputs keep ins ↔ s ∈ keep))
    ∧ ((∀ s w, v ≠ JVal.vlist [JVal.vstr s, w]) → (k, v) ∈ cleanInputs keep ins) := by
  constructor
  · intro s w hv
    subst hv
    have hkv : keepVal keep (JVal.vlist [JVal.vstr s, w]) = decide (s ∈ keep) := rfl
    constructor
    · intro hmem2
      have h2 := (List.mem_filter.mp hmem2).2
      rw [hkv] at h2
      simpa using h2
    · intro hs
      refine List.mem_filter.mpr ⟨hmem, ?_⟩
      rw [hkv]
      simpa using hs
  · intro hshape
    have href : isRefShape v = false := by
      by_contra hc
      have hc' : isRefShape v = true := by simpa using hc
      rcases (isRefShape_iff v).mp hc' with ⟨s, w, hv⟩
      exact hshape s w hv
    exact List.mem_filter.mpr ⟨hmem, keepVal_of_not_ref keep v href⟩

/-- C10 witness: on ins10 with keep = ["9"], the reference to node 2 is
dropped, while the two-element list headed by an integer and the plain
literal both survive. -/
theorem reference_shape_detection_witness :
    (("x", refVal "2" 0) ∉ cleanInputs ["9"] ins10)
    ∧ (("y", JVal.vlist [JVal.vint 1, JVal.vint 2]) ∈ cleanInputs ["9"] ins10)
    ∧ (("z", JVal.vint 3) ∈ cleanInputs ["9"] ins10) := by
  have hx : ("x", refVal "2" 0) ∈ ins10 := List.mem_cons_self _ _
  have hy : ("y", JVal.vlist [JVal.vint 1, JVal.vint 2]) ∈ ins10 :=
    List.mem_cons_of_mem _ (List.mem_cons_self _ _)
  have hz : ("z", JVal.vint 3) ∈ ins10 :=
    List.mem_cons_of_mem _ (List.mem_cons_of_mem _ (List.mem_cons_self _ _))
  refine ⟨?_, ?_, ?_⟩
  · intro hmem2
    have := ((reference_shape_detection ["9"] ins10 "x" (refVal "2" 0) hx).1
      "2" (JVal.vint 0) rfl).mp hmem2
    simp at this
  · refine (reference_shape_detection ["9"] ins10 "y" (JVal.vlist [JVal.vint 1, JVal.vint 2]) hy).2 ?_
    intro s w h
    injection h with h1
    injection h1 with h2 h3
    exact JVal.noConfusion h2
  · refine (reference_shape_detection ["9"] ins10 "z" (JVal.vint 3) hz).2 ?_
    intro s w h
    exact JVal.noConfusion h

/-! Compiler lemmas: success and failure. -/

theorem compileStep_isSome (links : List Link) (mapping : Option (List (String × JVal)))
    (widgets : Widgets) (st : List (String × JVal) × Nat) (inp : RawInput) :
    (compileStep links mapping widgets st inp).isSome =
      inp.link.all (fun lid => (lookupLink links lid).isSome) := by
  rcases inp with ⟨name, link, widget⟩
  cases link with
  | some lid =>
      cases hl : lookupLink links lid <;> simp [compileStep, Option.all, hl]
  | none =>
      cases widget with
      | false => simp [compileStep, Option.all]
      | true =>
          cases hm : mapping.bind (fun m => alookup m name) with
          | some v => simp [compileStep, Option.all, hm]
          | none =>
              cases widgets with
              | wnone => simp [compileStep, Option.all, hm]
              | wlist ws => simp [compileStep, Option.all, hm]
              | wdict d => cases hd : alookup d name <;> simp [compileStep, Option.all, hm, hd]

theorem compileFold_isSome (links : List Link) (mapping : Option (List (String × JVal)))
    (widgets : Widgets) (l : List RawInput) (st : List (String × JVal) × Nat) :
    (compileFold links mapping widgets l st).isSome =
      l.all (fun inp => inp.link.all (fun lid => (lookupLink links lid).isSome)) := by
  induction l generalizing st with
  | nil => simp [compileFold]
  | cons inp rest ih =>
      have hstep := compileStep_isSome links mapping widgets st inp
      cases hs : compileStep links mapping widgets st inp with
      | none =>
          rw [hs] at hstep
          simp [compileFold, hs, List.all_cons, ← hstep]
      | some st' =>
          rw [hs] at hstep
          simp [compileFold, hs, List.all_cons, ← hstep, ih st']

theorem compileNode_isSome (links : List Link) (n : RawNode) :
    (compileNode links n).isSome =
      n.inputs.all (fun inp => inp.link.all (fun lid => (lookupLink links lid).isSome)) := by
  rw [← compileFold_isSome links (nodeMapping n) n.widgets n.inputs ([], 0), compileNode]
  cases compileFold links (nodeMapping n) n.widgets n.inputs ([], 0) <;> rfl

theorem compileGraph_isSome (links : List Link) (nodes : List RawNode) (acc : FlatGraph) :
    (compileGraph links nodes acc).isSome =
      nodes.all (fun n => (compileNode links n).isSome) := by
  induction nodes generalizing acc with
  | nil => simp [compileGraph]
  | cons n rest ih =>
      cases hn : compileNode links n with
      | none => simp [compileGraph, hn]
      | some e => simp [compileGraph, hn, ih]

theorem compile_isSome_eq (g : RawGraph) : (compile g).isSome = linkResolvable g := by
  rw [compile, compileGraph_isSome, linkResolvable]
  simp only [compileNode_isSome]

/-! Compiler lemmas: frame, append and cursor. -/

theorem compileStep_fst (links : List Link) (mapping : Option (List (String × JVal)))
    (widgets : Widgets) (st : List (String × JVal) × Nat) (inp : RawInput)
    (st' : List (String × JVal) × Nat)
    (h : compileStep links mapping widgets st inp = some st') :
    st'.1 = st.1 ∨ ∃ v, st'.1 = upsert st.1 inp.name v := by
  rcases inp with ⟨name, link, widget⟩
  cases link with
  | some lid =>
      cases hl : lookupLink links lid with
      | none => simp [compileStep, hl] at h
      | some l =>
          simp only [compileStep, Option.some.injEq] at h
          rw [hl] at h
          simp only [Option.some.injEq] at h
          right
          exact ⟨_, (congrArg Prod.fst h).symm⟩
  | none =>
      cases widget with
      | false =>
          simp only [compileStep, Bool.false_eq_true, if_false, Option.some.injEq] at h
          left
          exact (congrArg Prod.fst h).symm
      | true =>
          cases hm : mapping.bind (fun m => alookup m name) with
          | some v =>
              simp only [compileStep, if_true, hm, Option.some.injEq] at h
              right
              exact ⟨v, (congrArg Prod.fst h).symm⟩
          | none =>
              cases widgets with
              | wnone =>
                  simp only [compileStep, if_true, hm, Option.some.injEq] at h
                  left
                  exact (congrArg Prod.fst h).symm
              | wlist ws =>
                  simp only [compileStep, if_true, hm, Option.some.injEq] at h
                  have h1 : st'.1 = if st.2 < ws.length then
                      upsert st.1 name (ws.getD st.2 JVal.vnull) else st.1 :=
                    (congrArg Prod.fst h).symm
                  by_cases hc : st.2 < ws.length
                  · right
                    exact ⟨ws.getD st.2 JVal.vnull, by rw [h1, if_pos hc]⟩
                  · left
                    rw [h1, if_neg hc]
              | wdict d =>
                  cases hd : alookup d name with
                  | some v =>
                      simp only [compileStep, if_true, hm, hd, Option.some.injEq] at h
                      right
                      exact ⟨v, (congrArg Prod.fst h).symm⟩
                  | none =>
                      simp only [compileStep, if_true, hm, hd, Option.some.injEq] at h
                      left
                      exact (congrArg Prod.fst h).symm

theorem compileStep_alookup_ne (links : List Link) (mapping : Option (List (String × JVal)))
    (widgets : Widgets) (st : List (String × JVal) × Nat) (inp : RawInput)
    (st' : List (String × JVal) × Nat) (k : String)
    (h : compileStep links mapping widgets st inp = some st') (hk : k ≠ inp.name) :
    alookup st'.1 k = alookup st.1 k := by
  rcases compileStep_fst links mapping widgets st inp st' h with h1 | ⟨v, h1⟩
  · rw [h1]
  · rw [h1, alookup_upsert_ne _ _ _ _ hk]

theorem compileFold_alookup_ne (links : List Link) (mapping : Option (List (String × JVal)))
    (widgets : Widgets) (l : List RawInput) (st st' : List (String × JVal) × Nat) (k : String)
    (h : compileFold links mapping widgets l st = some st')
    (hk : ∀ inp ∈ l, k ≠ inp.name) :
    alookup st'.1 k = alookup st.1 k := by
  induction l generalizing st with
  | nil =>
      simp only [compileFold, Option.some.injEq] at h
      rw [h]
  | cons inp rest ih =>
      rw [compileFold] at h
      cases hs : compileStep links mapping widgets st inp with
      | none => rw [hs] at h; exact absurd h (by simp)
      | some mid =>
          rw [hs] at h
          have h1 := compileStep_alookup_ne links mapping widgets st inp mid k hs
            (hk inp (List.mem_cons_self _ _))
          have h2 := ih mid h (fun i hi => hk i (List.mem_cons_of_mem _ hi))
          rw [h2, h1]

theorem compileFold_append (links : List Link) (mapping : Option (List (String × JVal)))
    (widgets : Widgets) (l1 l2 : List RawInput) (st st' : List (String × JVal) × Nat) :
    compileFold links mapping widgets (l1 ++ l2) st = some st' ↔
      ∃ mid, compileFold links mapping widgets l1 st = some mid ∧
             compileFold links mapping widgets l2 mid = some st' := by
  induction l1 generalizing st with
  | nil => simp [compileFold]
  | cons inp rest ih =>
      rw [List.cons_append, compileFold, compileFold]
      cases hs : compileStep links mapping widgets st inp with
      | none => simp
      | some mid => simp [ih]

theorem compileStep_cursor (links : List Link) (ws : List JVal)
    (st : List (String × JVal) × Nat) (inp : RawInput) (st' : List (String × JVal) × Nat)
    (h : compileStep links none (Widgets.wlist ws) st inp = some st') :
    st'.2 = if inp.widget then st.2 + 1 else st.2 := by
  rcases inp with ⟨name, link, widget⟩
  cases link with
  | some lid =>
      cases hl : lookupLink links lid with
      | none => simp [compileStep, hl] at h
      | some l =>
          simp only [compileStep, Option.some.injEq] at h
          rw [hl] at h
          simp only [Option.some.injEq] at h
          have h2 := (congrArg Prod.snd h).symm
          cases widget with
          | false => simpa [Widgets.isList] using h2
          | true => simpa [Widgets.isList] using h2
  | none =>
      cases widget with
      | false =>
          simp only [compileStep, Bool.false_eq_true, if_false, Option.some.injEq] at h
          simpa using (congrArg Prod.snd h).symm
      | true =>
          have hb : (none : Option (List (String × JVal))).bind (fun m => alookup m name) = none := rfl
          simp only [compileStep, if_true, hb, Option.some.injEq] at h
          simpa using (congrArg Prod.snd h).symm

theorem compileFold_cursor (links : List Link) (ws : List JVal) (l : List RawInput)
    (st st' : List (String × JVal) × Nat)
    (h : compileFold links none (Widgets.wlist ws) l st = some st') :
    st'.2 = st.2 + (l.filter (fun i => i.widget)).length := by
  induction l generalizing st with
  | nil =>
      simp only [compileFold, Option.some.injEq] at h
      rw [h]
      simp
  | cons inp rest ih =>
      rw [compileFold] at h
      cases hs : compileStep links none (Widgets.wlist ws) st inp with
      | none => rw [hs] at h; exact absurd h (by simp)
      | some mid =>
          rw [hs] at h
          have hc := compileStep_cursor links ws st inp mid hs
          have hr := ih mid h
          rw [List.filter_cons]
          by_cases hw : inp.widget = true
          · rw [if_pos (by simpa using hw)] at hc ⊢
            rw [hr, hc]
            simp
            omega
          · rw [if_neg (by simpa using hw)] at hc ⊢
            rw [hr, hc]

theorem compileNode_split (links : List Link) (n : RawNode) (e : FlatNode)
    (pre : List RawInput) (inp : RawInput) (post : List RawInput)
    (h : compileNode links n = some e) (hsplit : n.inputs = pre ++ inp :: post) :
    ∃ mid st' cfin,
      compileFold links (nodeMapping n) n.widgets pre ([], 0) = some mid
      ∧ compileStep links (nodeMapping n) n.widgets mid inp = some st'
      ∧ compileFold links (nodeMapping n) n.widgets post st' = some (e.inputs, cfin) := by
  rw [compileNode] at h
  cases hf : compileFold links (nodeMapping n) n.widgets n.inputs ([], 0) with
  | none => rw [hf] at h; exact absurd h (by simp)
  | some stf =>
      rw [hf] at h
      simp only [Option.map_some', Option.some.injEq] at h
      rw [hsplit] at hf
      rcases (compileFold_append links (nodeMapping n) n.widgets pre (inp :: post) ([], 0)
        stf).mp hf with ⟨mid, h1, h2⟩
      rw [compileFold] at h2
      cases hs : compileStep links (nodeMapping n) n.widgets mid inp with
      | none => rw [hs] at h2; exact absurd h2 (by simp)
      | some st' =>
          rw [hs] at h2
          refine ⟨mid, st', stf.2, h1, hs, ?_⟩
          have he : e.inputs = stf.1 := by rw [← h]
          rw [he]
          exact h2

theorem split_name_fresh (pre post : List RawInput) (inp : RawInput)
    (hnd : ((pre ++ inp :: post).map (fun i => i.name)).Nodup) :
    (∀ i ∈ pre, i.name ≠ inp.name) ∧ (∀ i ∈ post, i.name ≠ inp.name) := by
  rw [List.map_append, List.map_cons] at hnd
  rcases List.nodup_append.mp hnd with ⟨hpre, hcons, hdisj⟩
  rcases List.nodup_cons.mp hcons with ⟨hnotpost, hpost⟩
  constructor
  · intro i hi heq
    exact hdisj (List.mem_map_of_mem _ hi) (by rw [heq]; exact List.mem_cons_self _ _)
  · intro i hi heq
    exact hnotpost (heq ▸ List.mem_map_of_mem _ hi)

theorem nodeMapping_eq_none (n : RawNode) (hty : n.type ≠ some "KSampler") :
    nodeMapping n = none := by
  cases ht : n.type with
  | none => cases hw : n.widgets <;> simp [nodeMapping, ht, hw]
  | some t =>
      have hne : ¬(t = "KSampler") := fun hh => hty (by rw [ht, hh])
      cases hw : n.widgets <;> simp [nodeMapping, ht, hw, hne]

theorem nodeMapping_ks (n : RawNode) (ws : List JVal)
    (hty : n.type = some "KSampler") (hw : n.widgets = Widgets.wlist ws) :
    nodeMapping n = some (ksMapping ws) := by
  simp [nodeMapping, hty, hw]

theorem nodeMapping_some (n : RawNode) (mp : List (String × JVal))
    (h : nodeMapping n = some mp) :
    ∃ ws, n.widgets = Widgets.wlist ws ∧ mp = ksMapping ws := by
  cases ht : n.type with
  | none => cases hw : n.widgets <;> simp [nodeMapping, ht, hw] at h
  | some t =>
      cases hw : n.widgets with
      | wnone => simp [nodeMapping, ht, hw] at h
      | wdict d => simp [nodeMapping, ht, hw] at h
      | wlist ws =>
          by_cases hks : t = "KSampler"
          · simp [nodeMapping, ht, hw, hks] at h
            exact ⟨ws, rfl, h.symm⟩
          · simp [nodeMapping, ht, hw, hks] at h

theorem compileNode_linked_binding (links : List Link) (n : RawNode) (e : FlatNode)
    (pre : List RawInput) (inp : RawInput) (post : List RawInput) (lid : Int)
    (h : compileNode links n = some e) (hsplit : n.inputs = pre ++ inp :: post)
    (hnd : (n.inputs.map (fun i => i.name)).Nodup) (hl : inp.link = some lid) :
    ∃ l, lookupLink links lid = some l ∧
      alookup e.inputs inp.name = some (refVal (toString l.producer) l.slot) := by
  rcases compileNode_split links n e pre inp post h hsplit with ⟨mid, st', cfin, h1, hs, h2⟩
  rw [hsplit] at hnd
  have hfresh := (split_name_fresh pre post inp hnd).2
  have hframe := compileFold_alookup_ne links (nodeMapping n) n.widgets post st'
    (e.inputs, cfin) inp.name h2 (fun i hi => (hfresh i hi).symm)
  rcases hstep : inp.link with _ | lid'
  · rw [hstep] at hl; exact absurd hl (by simp)
  · rw [hstep] at hl
    have hlid : lid' = lid := by simpa using hl
    subst hlid
    cases hll : lookupLink links lid' with
    | none =>
        rcases inp with ⟨name, link, widget⟩
        simp only at hstep
        subst hstep
        simp [compileStep, hll] at hs
    | some l =>
        refine ⟨l, rfl, ?_⟩
        rcases inp with ⟨name, link, widget⟩
        simp only at hstep
        subst hstep
        simp only [compileStep, Option.some.injEq] at hs
        rw [hll] at hs
        simp only [Option.some.injEq] at hs
        have hst : st'.1 = upsert mid.1 name (refVal (toString l.producer) l.slot) :=
          (congrArg Prod.fst hs).symm
        have : alookup (e.inputs, cfin).1 name = alookup st'.1 name := hframe
        simp only at this
        rw [this, hst, alookup_upsert_self]

theorem compileNode_override_binding (links : List Link) (n : RawNode) (e : FlatNode)
    (pre : List RawInput) (inp : RawInput) (post : List RawInput) (ws : List JVal)
    (h : compileNode links n = some e)
    (hty : n.type = some "KSampler") (hw : n.widgets = Widgets.wlist ws)
    (hsplit : n.inputs = pre ++ inp :: post)
    (hnd : (n.inputs.map (fun i => i.name)).Nodup)
    (hl : inp.link = none) (hwid : inp.widget = true)
    (v : JVal) (hv : alookup (ksMapping ws) inp.name = some v) :
    alookup e.inputs inp.name = some v := by
  rcases compileNode_split links n e pre inp post h hsplit with ⟨mid, st', cfin, h1, hs, h2⟩
  rw [hsplit] at hnd
  have hfresh := (split_name_fresh pre post inp hnd).2
  have hframe := compileFold_alookup_ne links (nodeMapping n) n.widgets post st'
    (e.inputs, cfin) inp.name h2 (fun i hi => (hfresh i hi).symm)
  rcases inp with ⟨name, link, widget⟩
  simp only at hl hwid hv ⊢
  subst hl
  subst hwid
  rw [nodeMapping_ks n ws hty hw] at hs
  simp only [compileStep, if_true, Option.some_bind, hv, Option.some.injEq] at hs
  have hst : st'.1 = upsert mid.1 name v := (congrArg Prod.fst hs).symm
  have hfin : alookup (e.inputs, cfin).1 name = alookup st'.1 name := hframe
  simp only at hfin
  rw [hfin, hst, alookup_upsert_self]

/-! Claims about positional widget binding and the KSampler override. -/

/-- C2 counterexample: on a KSampler node whose first widget port seed is
bound by the type-specific override, the cursor does NOT advance, so the
following widget port extra reads widgets[0] again instead of widgets[1];
with N = 2 widget ports, M = 0 linked, and a widget array of length
N - M = 2, the second unlinked port is not bound to the second array
element as the claim requires. -/
theorem widget_cursor_cex :
    compileNode [] ksCexNode =
      some { class_type := some "KSampler",
             inputs := [("seed", JVal.vint 100), ("extra", JVal.vint 100)] }
    ∧ alookup [("seed", JVal.vint 100), ("extra", JVal.vint 100)] "extra" ≠
        some (JVal.vint 200) := by
  refine ⟨rfl, ?_⟩
  intro h
  have h0 : some (JVal.vint 100) = some (JVal.vint 200) := h
  have h1 := Option.some.inj h0
  injection h1 with h2
  exact absurd h2 (by decide)

/-- C2 (amended): for a node with no type-specific override in effect and a
positional widget array, the cursor advances once per widget-flagged port
whether linked or not, so the port whose widget position is i reads
widgets[i] when i is within the array (and is omitted when the cursor has
passed the end); linked ports are bound to their reference, and ports that
are neither linked nor widget-flagged stay unbound. Ports bound by a
type-specific override do not advance the cursor, and an array of length
N - M therefore leaves unlinked ports positioned after a linked port
unbound. -/
theorem widget_cursor_characterization (links : List Link) (n : RawNode) (ws : List JVal)
    (e : FlatNode) (pre : List RawInput) (inp : RawInput) (post : List RawInput)
    (hty : n.type ≠ some "KSampler") (hw : n.widgets = Widgets.wlist ws)
    (hnd : (n.inputs.map (fun i => i.name)).Nodup)
    (hc : compileNode links n = some e)
    (hsplit : n.inputs = pre ++ inp :: post) :
    (inp.link = none → inp.widget = true →
      alookup e.inputs inp.name =
        if (pre.filter (fun i => i.widget)).length < ws.length then
          some (ws.getD (pre.filter (fun i => i.widget)).length JVal.vnull)
        else none)
    ∧ (∀ lid, inp.link = some lid → ∃ l, lookupLink links lid = some l ∧
        alookup e.inputs inp.name = some (refVal (toString l.producer) l.slot))
    ∧ (inp.link = none → inp.widget = false → alookup e.inputs inp.name = none) := by
  have hnd0 := hnd
  have hmap : nodeMapping n = none := nodeMapping_eq_none n hty
  rcases compileNode_split links n e pre inp post hc hsplit with ⟨mid, st', cfin, h1, hs, h2⟩
  rw [hsplit] at hnd
  have hfre := split_name_fresh pre post inp hnd
  have hframePost := compileFold_alookup_ne links (nodeMapping n) n.widgets post st'
    (e.inputs, cfin) inp.name h2 (fun i hi => (hfre.2 i hi).symm)
  have hfin : alookup e.inputs inp.name = alookup st'.1 inp.name := hframePost
  have hframePre := compileFold_alookup_ne links (nodeMapping n) n.widgets pre ([], 0) mid
    inp.name h1 (fun i hi => (hfre.1 i hi).symm)
  have hmidnone : alookup mid.1 inp.name = none := hframePre.trans rfl
  rw [hmap, hw] at h1 hs
  have hcur : mid.2 = (pre.filter (fun i => i.widget)).length := by
    have := compileFold_cursor links ws pre ([], 0) mid h1
    simpa using this
  have hb : (none : Option (List (String × JVal))).bind (fun m => alookup m inp.name) = none := rfl
  refine ⟨?_, ?_, ?_⟩
  · intro hl hwid
    simp only [compileStep, hl, hwid, if_true, hb, Option.some.injEq] at hs
    have hst : st'.1 = if mid.2 < ws.length then upsert mid.1 inp.name (ws.getD mid.2 JVal.vnull)
        else mid.1 := (congrArg Prod.fst hs).symm
    by_cases hlen : (pre.filter (fun i => i.widget)).length < ws.length
    · rw [if_pos hlen, hfin, hst, if_pos (by rw [hcur]; exact hlen), hcur,
        alookup_upsert_self]
    · rw [if_neg hlen, hfin, hst, if_neg (by rw [hcur]; exact hlen)]
      exact hmidnone
  · intro lid hl
    exact compileNode_linked_binding links n e pre inp post lid hc hsplit hnd0 hl
  · intro hl hwid
    simp only [compileStep, hl, hwid, Bool.false_eq_true, if_false, Option.some.injEq] at hs
    have hst : st'.1 = mid.1 := (congrArg Prod.fst hs).symm
    rw [hfin, hst]
    exact hmidnone

/-- C2 witness: on posNode, whose first widget port is linked and second is
positional, the compiled node binds a to the reference from link 1 and b to
widgets[1], the cursor having advanced over the linked port. -/
theorem widget_cursor_characterization_witness :
    alookup [("a", refVal "5" 0), ("b", JVal.vint 8)] "b" = some (JVal.vint 8)
    ∧ alookup [("a", refVal "5" 0), ("b", JVal.vint 8)] "a" = some (refVal "5" 0) := by
  have h1 := widget_cursor_characterization posLinks posNode [JVal.vint 7, JVal.vint 8]
    { class_type := some "TypeX", inputs := [("a", refVal "5" 0), ("b", JVal.vint 8)] }
    [{ name := "a", link := some 1, widget := true }]
    { name := "b", link := none, widget := true } []
    (by decide) rfl (by decide) rfl rfl
  have h2 := widget_cursor_characterization posLinks posNode [JVal.vint 7, JVal.vint 8]
    { class_type := some "TypeX", inputs := [("a", refVal "5" 0), ("b", JVal.vint 8)] }
    [] { name := "a", link := some 1, widget := true }
    [{ name := "b", link := none, widget := true }]
    (by decide) rfl (by decide) rfl rfl
  constructor
  · have hbinding := h1.1 rfl rfl
    exact hbinding
  · rcases h2.2.1 1 rfl with ⟨l, hl, hbinding⟩
    rw [show lookupLink posLinks 1 =
        some ({ id := 1, producer := 5, slot := 0, consumer := 2, cslot := 0 } : Link) from rfl] at hl
    have hleq := Option.some.inj hl
    rw [← hleq] at hbinding
    exact hbinding

/-- C8: for a KSampler node with a positional widget array, every unlinked
widget-flagged input named seed, steps, cfg, sampler_name, scheduler or
denoise is bound by the type-specific override table: seed from index 0
with default 0, steps from index 2 with default 4, cfg from index 3 with
default 5, sampler_name from index 4 with default euler, scheduler from
index 5 with default beta, denoise from index 6 with default 1, the default
applying exactly when the array is too short to contain the index. -/
theorem ksampler_override_binding (links : List Link) (n : RawNode) (ws : List JVal)
    (e : FlatNode) (inp : RawInput)
    (hty : n.type = some "KSampler") (hw : n.widgets = Widgets.wlist ws)
    (hnd : (n.inputs.map (fun i => i.name)).Nodup)
    (hc : compileNode links n = some e)
    (hin : inp ∈ n.inputs) (hl : inp.link = none) (hwid : inp.widget = true) :
    (inp.name = "seed" → alookup e.inputs "seed" = some (ws.getD 0 (JVal.vint 0)))
    ∧ (inp.name = "steps" → alookup e.inputs "steps" = some (ws.getD 2 (JVal.vint 4)))
    ∧ (inp.name = "cfg" → alookup e.inputs "cfg" = some (ws.getD 3 (JVal.vint 5)))
    ∧ (inp.name = "sampler_name" →
        alookup e.inputs "sampler_name" = some (ws.getD 4 (JVal.vstr "euler")))
    ∧ (inp.name = "scheduler" →
        alookup e.inputs "scheduler" = some (ws.getD 5 (JVal.vstr "beta")))
    ∧ (inp.name = "denoise" → alookup e.inputs "denoise" = some (ws.getD 6 (JVal.vint 1))) := by
  rcases List.append_of_mem hin with ⟨pre, post, hsp⟩
  refine ⟨?_, ?_, ?_, ?_, ?_, ?_⟩ <;> intro hname
  · have hv : alookup (ksMapping ws) inp.name = some (ws.getD 0 (JVal.vint 0)) := by
      rw [hname]
      rfl
    have hbind := compileNode_override_binding links n e pre inp post ws hc hty hw hsp hnd
      hl hwid _ hv
    rw [hname] at hbind
    exact hbind
  · have hv : alookup (ksMapping ws) inp.name = some (ws.getD 2 (JVal.vint 4)) := by
      rw [hname]
      rfl
    have hbind := compileNode_override_binding links n e pre inp post ws hc hty hw hsp hnd
      hl hwid _ hv
    rw [hname] at hbind
    exact hbind
  · have hv : alookup (ksMapping ws) inp.name = some (ws.getD 3 (JVal.vint 5)) := by
      rw [hname]
      rfl
    have hbind := compileNode_override_binding links n e pre inp post ws hc hty hw hsp hnd
      hl hwid _ hv
    rw [hname] at hbind
    exact hbind
  · have hv : alookup (ksMapping ws) inp.name = some (ws.getD 4 (JVal.vstr "euler")) := by
      rw [hname]
      rfl
    have hbind := compileNode_override_binding links n e pre inp post ws hc hty hw hsp hnd
      hl hwid _ hv
    rw [hname] at hbind
    exact hbind
  · have hv : alookup (ksMapping ws) inp.name = some (ws.getD 5 (JVal.vstr "beta")) := by
      rw [hname]
      rfl
    have hbind := compileNode_override_binding links n e pre inp post ws hc hty hw hsp hnd
      hl hwid _ hv
    rw [hname] at hbind
    exact hbind
  · have hv : alookup (ksMapping ws) inp.name = some (ws.getD 6 (JVal.vint 1)) := by
      rw [hname]
      rfl
    have hbind := compileNode_override_binding links n e pre inp post ws hc hty hw hsp hnd
      hl hwid _ hv
    rw [hname] at hbind
    exact hbind

/-- C8 witness: on ksW8 with the one-element widget array [42], seed is
bound from index 0 and steps falls back to the default 4. -/
theorem ksampler_override_binding_witness :
    alookup e8.inputs "seed" = some (JVal.vint 42)
    ∧ alookup e8.inputs "steps" = some (JVal.vint 4) := by
  have h1 := ksampler_override_binding [] ksW8 [JVal.vint 42] e8
    { name := "seed", link := none, widget := true } rfl rfl (by decide) rfl
    (List.mem_cons_self _ _) rfl rfl
  have h2 := ksampler_override_binding [] ksW8 [JVal.vint 42] e8
    { name := "steps", link := none, widget := true } rfl rfl (by decide) rfl
    (List.mem_cons_of_mem _ (List.mem_cons_self _ _)) rfl rfl
  exact ⟨h1.1 rfl, h2.2.1 rfl⟩

/-- C9: the two-node scenario compiles exactly to flat9, and extracting
flat9 with keep = ["2"] drops the reference to node 1, leaving node 2 with
empty inputs. -/
theorem concrete_scenario_roundtrip :
    compile g9 = some flat9
    ∧ build flat9 ["2"] = [("2", { class_type := some "TypeB", inputs := [] })] :=
  ⟨rfl, rfl⟩

/-! Graph-level compiler lemmas. -/

theorem compileGraph_frame (links : List Link) (nodes : List RawNode) (acc m : FlatGraph)
    (h : compileGraph links nodes acc = some m) (k : String)
    (hk : k ∉ nodes.map (fun n => toString n.id)) :
    alookup m k = alookup acc k := by
  induction nodes generalizing acc with
  | nil =>
      simp only [compileGraph, Option.some.injEq] at h
      rw [h]
  | cons n0 rest ih =>
      rw [compileGraph] at h
      cases hc : compileNode links n0 with
      | none => rw [hc] at h; exact absurd h (by simp)
      | some e0 =>
          rw [hc] at h
          simp only [List.map_cons, List.mem_cons, not_or] at hk
          rw [ih _ h hk.2, alookup_upsert_ne _ _ _ _ hk.1]

theorem compileGraph_lookup (links : List Link) (nodes : List RawNode) (acc m : FlatGraph)
    (h : compileGraph links nodes acc = some m)
    (hnd : (nodes.map (fun n => toString n.id)).Nodup) :
    ∀ n ∈ nodes, ∃ e, compileNode links n = some e ∧ alookup m (toString n.id) = some e := by
  induction nodes generalizing acc with
  | nil => intro n hn; simp at hn
  | cons n0 rest ih =>
      rw [compileGraph] at h
      cases hc : compileNode links n0 with
      | none => rw [hc] at h; exact absurd h (by simp)
      | some e0 =>
          rw [hc] at h
          rw [List.map_cons, List.nodup_cons] at hnd
          intro n hn
          rcases List.mem_cons.mp hn with heq | hn'
          · subst heq
            refine ⟨e0, hc, ?_⟩
            rw [compileGraph_frame links rest _ m h (toString n.id) hnd.1,
              alookup_upsert_self]
          · exact ih _ h hnd.2 n hn'

/-! Claims about link resolution and the patch helper. -/

/-- C6: compilation returns none exactly when some node input declares a
link id absent from the links table, so no output document is produced on a
malformed link and a declared link is never silently dropped; and when
every declared link id resolves, every linked input of every node is bound
to the reference [str(producer), producer_slot] taken from the table entry
of its link id. -/
theorem compile_link_policy (g : RawGraph) :
    (compile g = none ↔ linkResolvable g = false)
    ∧ (linkResolvable g = true →
        ∃ m, compile g = some m ∧
          (((g.nodes.map (fun n => toString n.id)).Nodup ∧
              ∀ n ∈ g.nodes, (n.inputs.map (fun i => i.name)).Nodup) →
            ∀ n ∈ g.nodes, ∀ inp ∈ n.inputs, ∀ lid, inp.link = some lid →
              ∃ l, lookupLink g.links lid = some l ∧
                ∃ e, alookup m (toString n.id) = some e ∧
                  alookup e.inputs inp.name = some (refVal (toString l.producer) l.slot))) := by
  have hiff : (compile g).isSome = linkResolvable g := compile_isSome_eq g
  constructor
  · constructor
    · intro h
      rw [h] at hiff
      exact hiff.symm
    · intro h
      rw [h] at hiff
      cases hc : compile g with
      | none => rfl
      | some m => rw [hc] at hiff; simp at hiff
  · intro hres
    rw [hres] at hiff
    cases hc : compile g with
    | none => rw [hc] at hiff; simp at hiff
    | some m =>
        refine ⟨m, rfl, ?_⟩
        intro hnd n hn inp hin lid hl
        cases hll : lookupLink g.links lid with
        | none =>
            have h1 := List.all_eq_true.mp hres n hn
            have h2 := List.all_eq_true.mp h1 inp hin
            rw [hl] at h2
            simp only [Option.all] at h2
            rw [hll] at h2
            simp at h2
        | some l =>
            refine ⟨l, rfl, ?_⟩
            rcases compileGraph_lookup g.links g.nodes [] m hc hnd.1 n hn with ⟨e, he, hm⟩
            refine ⟨e, hm, ?_⟩
            rcases List.append_of_mem hin with ⟨pre, post, hsp⟩
            rcases compileNode_linked_binding g.links n e pre inp post lid he hsp
              (hnd.2 n hn) hl with ⟨l', hl', hb⟩
            rw [hll] at hl'
            rw [← Option.some.inj hl'] at hb
            exact hb

/-- C6 witness: the graph gB6 declaring the absent link id 99 fails to
compile, while the well-formed graph gW6 compiles and binds the input named
in of node 4 to the reference produced by link 7. -/
theorem compile_link_policy_witness :
    compile gB6 = none
    ∧ ∃ m, compile gW6 = some m ∧ ∃ e, alookup m "4" = some e ∧
        alookup e.inputs "in" = some (refVal "3" 2) := by
  constructor
  · exact (compile_link_policy gB6).1.mpr rfl
  · rcases (compile_link_policy gW6).2 rfl with ⟨m, hm, hbind⟩
    refine ⟨m, hm, ?_⟩
    have hin : ({ name := "in", link := some 7, widget := false } : RawInput) ∈ nodeQ.inputs :=
      List.mem_cons_self _ _
    have hnq : nodeQ ∈ gW6.nodes := List.mem_cons_of_mem _ (List.mem_cons_self _ _)
    rcases hbind ⟨by decide, by decide⟩ nodeQ hnq _ hin 7 rfl with ⟨l, hl, e, he, hb⟩
    rw [show lookupLink gW6.links 7 =
        some ({ id := 7, producer := 3, slot := 2, consumer := 4, cslot := 0 } : Link) from rfl] at hl
    rw [← Option.some.inj hl] at hb
    exact ⟨e, he, hb⟩

/-- C7: a setLink targeting an absent node id returns the map unchanged; a
setLink targeting a present node overwrites the named input of that node
with the reference [str(producerId), producerSlot] and leaves its other
inputs and its class_type intact. -/
theorem set_link_policy (p : FlatGraph) (nid iname sid : String) (slot : Int) :
    (alookup p nid = none → set_link p nid iname sid slot = p)
    ∧ (∀ nd, alookup p nid = some nd →
        ∃ nd', alookup (set_link p nid iname sid slot) nid = some nd'
          ∧ nd'.class_type = nd.class_type
          ∧ alookup nd'.inputs iname = some (refVal sid slot)
          ∧ ∀ k, k ≠ iname → alookup nd'.inputs k = alookup nd.inputs k) := by
  constructor
  · intro h
    simp only [set_link, h]
  · intro nd h
    refine ⟨{ nd with inputs := upsert nd.inputs iname (refVal sid slot) }, ?_, rfl, ?_, ?_⟩
    · simp only [set_link, h]
      exact alookup_upsert_self p nid _
    · exact alookup_upsert_self nd.inputs iname _
    · intro k hk
      exact alookup_upsert_ne nd.inputs iname k _ hk

/-- C7 witness: on wP7, patching the absent node 99 is a no-op, and patching
the present node 10 adds the reference while keeping the old literal. -/
theorem set_link_policy_witness :
    set_link wP7 "99" "x" "1" 0 = wP7
    ∧ ∃ nd', alookup (set_link wP7 "10" "new" "32" 0) "10" = some nd'
        ∧ nd'.class_type = some "E"
        ∧ alookup nd'.inputs "new" = some (refVal "32" 0)
        ∧ alookup nd'.inputs "old" = some (JVal.vint 1) := by
  constructor
  · exact (set_link_policy wP7 "99" "x" "1" 0).1 rfl
  · rcases (set_link_policy wP7 "10" "new" "32" 0).2
      { class_type := some "E", inputs := [("old", JVal.vint 1)] } rfl with ⟨nd', h1, h2, h3, h4⟩
    refine ⟨nd', h1, by rw [h2], h3, ?_⟩
    rw [h4 "old" (by decide)]
    rfl

/-! Value provenance lemmas for the pipeline. -/

theorem lookupLink_mem (ls : List Link) (lid : Int) (l : Link)
    (h : lookupLink ls lid = some l) : l ∈ ls := by
  have hm := List.mem_of_find?_eq_some h
  simpa using hm

theorem getD_mem_or_default {α : Type} (ws : List α) (i : Nat) (d : α) :
    ws.getD i d ∈ ws ∨ ws.getD i d = d := by
  induction ws generalizing i with
  | nil => right; cases i <;> rfl
  | cons x rest ih =>
      cases i with
      | zero => left; simp
      | succ j =>
          rcases ih j with h | h
          · left
            rw [List.getD_cons_succ]
            exact List.mem_cons_of_mem _ h
          · right
            rw [List.getD_cons_succ, h]

theorem ksMapping_values_not_ref (ws : List JVal)
    (hws : ws.all (fun v => !isRefShape v) = true)
    (name : String) (v : JVal) (hv : alookup (ksMapping ws) name = some v) :
    isRefShape v = false := by
  have hnr : ∀ x ∈ ws, isRefShape x = false := by
    intro x hx
    have hh := List.all_eq_true.mp hws x hx
    simpa using hh
  have hmem := alookup_mem _ _ _ hv
  have hval : v = ws.getD 0 (JVal.vint 0) ∨ v = ws.getD 2 (JVal.vint 4)
      ∨ v = ws.getD 3 (JVal.vint 5) ∨ v = ws.getD 4 (JVal.vstr "euler")
      ∨ v = ws.getD 5 (JVal.vstr "beta") ∨ v = ws.getD 6 (JVal.vint 1) := by
    simp only [ksMapping, List.mem_cons, List.not_mem_nil, or_false, Prod.mk.injEq] at hmem
    tauto
  have hcase : ∀ (i : Nat) (d : JVal), isRefShape d = false → v = ws.getD i d →
      isRefShape v = false := by
    intro i d hd hv'
    rcases getD_mem_or_default ws i d with hm | hm
    · rw [hv']; exact hnr _ hm
    · rw [hv', hm]; exact hd
  rcases hval with h | h | h | h | h | h
  · exact hcase 0 (JVal.vint 0) rfl h
  · exact hcase 2 (JVal.vint 4) rfl h
  · exact hcase 3 (JVal.vint 5) rfl h
  · exact hcase 4 (JVal.vstr "euler") rfl h
  · exact hcase 5 (JVal.vstr "beta") rfl h
  · exact hcase 6 (JVal.vint 1) rfl h

theorem nodeMapping_values_not_ref (n : RawNode) (hwid : widgetsNoRef n.widgets = true)
    (name : String) (v : JVal)
    (h : (nodeMapping n).bind (fun m => alookup m name) = some v) :
    isRefShape v = false := by
  cases hm : nodeMapping n with
  | none => rw [hm] at h; simp at h
  | some mp =>
      rw [hm] at h
      simp only [Option.some_bind] at h
      rcases nodeMapping_some n mp hm with ⟨ws, hw, hmp⟩
      rw [hmp] at h
      rw [hw] at hwid
      exact ksMapping_values_not_ref ws hwid name v h

theorem compileStep_values (links : List Link) (mapping : Option (List (String × JVal)))
    (widgets : Widgets) (st : List (String × JVal) × Nat) (inp : RawInput)
    (st' : List (String × JVal) × Nat)
    (h : compileStep links mapping widgets st inp = some st')
    (hmap : ∀ name v, mapping.bind (fun m => alookup m name) = some v → isRefShape v = false)
    (hwid : widgetsNoRef widgets = true)
    (hst : ∀ kv ∈ st.1, isRefShape kv.2 = false ∨
      ∃ l ∈ links, kv.2 = refVal (toString l.producer) l.slot) :
    ∀ kv ∈ st'.1, isRefShape kv.2 = false ∨
      ∃ l ∈ links, kv.2 = refVal (toString l.producer) l.slot := by
  intro kv hkv
  rcases inp with ⟨name, link, widget⟩
  cases link with
  | some lid =>
      cases hl : lookupLink links lid with
      | none => simp [compileStep, hl] at h
      | some l =>
          simp only [compileStep, Option.some.injEq] at h
          rw [hl] at h
          simp only [Option.some.injEq] at h
          have hst1 : st'.1 = upsert st.1 name (refVal (toString l.producer) l.slot) :=
            (congrArg Prod.fst h).symm
          rw [hst1] at hkv
          rcases mem_upsert _ _ _ _ hkv with hold | hnew
          · exact hst kv hold
          · right
            exact ⟨l, lookupLink_mem links lid l hl, by rw [hnew]⟩
  | none =>
      cases widget with
      | false =>
          simp only [compileStep, Bool.false_eq_true, if_false, Option.some.injEq] at h
          have hst1 : st'.1 = st.1 := (congrArg Prod.fst h).symm
          rw [hst1] at hkv
          exact hst kv hkv
      | true =>
          cases hm : mapping.bind (fun m => alookup m name) with
          | some v =>
              simp only [compileStep, if_true, hm, Option.some.injEq] at h
              have hst1 : st'.1 = upsert st.1 name v := (congrArg Prod.fst h).symm
              rw [hst1] at hkv
              rcases mem_upsert _ _ _ _ hkv with hold | hnew
              · exact hst kv hold
              · left
                rw [hnew]
                exact hmap name v hm
          | none =>
              cases widgets with
              | wnone =>
                  simp only [compileStep, if_true, hm, Option.some.injEq] at h
                  have hst1 : st'.1 = st.1 := (congrArg Prod.fst h).symm
                  rw [hst1] at hkv
                  exact hst kv hkv
              | wlist ws =>
                  simp only [compileStep, if_true, hm, Option.some.injEq] at h
                  have hst1 : st'.1 = if st.2 < ws.length then
                      upsert st.1 name (ws.getD st.2 JVal.vnull) else st.1 :=
                    (congrArg Prod.fst h).symm
                  by_cases hc : st.2 < ws.length
                  · rw [hst1, if_pos hc] at hkv
                    rcases mem_upsert _ _ _ _ hkv with hold | hnew
                    · exact hst kv hold
                    · left
                      rw [hnew]
                      rcases getD_mem_or_default ws st.2 JVal.vnull with hmm | hmm
                      · have hws : ws.all (fun v => !isRefShape v) = true := hwid
                        have hh := List.all_eq_true.mp hws _ hmm
                        simpa using hh
                      · rw [hmm]; rfl
                  · rw [hst1, if_neg hc] at hkv
                    exact hst kv hkv
              | wdict d =>
                  cases hd : alookup d name with
                  | some v =>
                      simp only [compileStep, if_true, hm, hd, Option.some.injEq] at h
                      have hst1 : st'.1 = upsert st.1 name v := (congrArg Prod.fst h).symm
                      rw [hst1] at hkv
                      rcases mem_upsert _ _ _ _ hkv with hold | hnew
                      · exact hst kv hold
                      · left
                        rw [hnew]
                        have hmemd := alookup_mem _ _ _ hd
                        have hd2 : d.all (fun kv => !isRefShape kv.2) = true := hwid
                        have hh := List.all_eq_true.mp hd2 _ hmemd
                        simpa using hh
                  | none =>
                      simp only [compileStep, if_true, hm, hd, Option.some.injEq] at h
                      have hst1 : st'.1 = st.1 := (congrArg Prod.fst h).symm
                      rw [hst1] at hkv
                      exact hst kv hkv

theorem compileFold_values (links : List Link) (mapping : Option (List (String × JVal)))
    (widgets : Widgets) (l : List RawInput) (st st' : List (String × JVal) × Nat)
    (h : compileFold links mapping widgets l st = some st')
    (hmap : ∀ name v, mapping.bind (fun m => alookup m name) = some v → isRefShape v = false)
    (hwid : widgetsNoRef widgets = true)
    (hst : ∀ kv ∈ st.1, isRefShape kv.2 = false ∨
      ∃ l ∈ links, kv.2 = refVal (toString l.producer) l.slot) :
    ∀ kv ∈ st'.1, isRefShape kv.2 = false ∨
      ∃ l ∈ links, kv.2 = refVal (toString l.producer) l.slot := by
  induction l generalizing st with
  | nil =>
      simp only [compileFold, Option.some.injEq] at h
      rw [← h]
      exact hst
  | cons inp rest ih =>
      rw [compileFold] at h
      cases hs : compileStep links mapping widgets st inp with
      | none => rw [hs] at h; exact absurd h (by simp)
      | some mid =>
          rw [hs] at h
          exact ih mid h (compileStep_values links mapping widgets st inp mid hs hmap hwid hst)

theorem compileNode_values (links : List Link) (n : RawNode) (e : FlatNode)
    (h : compileNode links n = some e) (hwid : widgetsNoRef n.widgets = true) :
    ∀ kv ∈ e.inputs, isRefShape kv.2 = false ∨
      ∃ l ∈ links, kv.2 = refVal (toString l.producer) l.slot := by
  rw [compileNode] at h
  cases hf : compileFold links (nodeMapping n) n.widgets n.inputs ([], 0) with
  | none => rw [hf] at h; exact absurd h (by simp)
  | some stf =>
      rw [hf] at h
      simp only [Option.map_some', Option.some.injEq] at h
      have he : e.inputs = stf.1 := by rw [← h]
      rw [he]
      exact compileFold_values links (nodeMapping n) n.widgets n.inputs ([], 0) stf hf
        (fun name v hv => nodeMapping_values_not_ref n hwid name v hv) hwid
        (by intro kv hkv; simp at hkv)

theorem compileGraph_mem_values (links : List Link) (nodes : List RawNode) (acc m : FlatGraph)
    (h : compileGraph links nodes acc = some m)
    (hwid : ∀ n ∈ nodes, widgetsNoRef n.widgets = true)
    (hacc : ∀ kv ∈ acc, ∀ iv ∈ kv.2.inputs, isRefShape iv.2 = false ∨
      ∃ l ∈ links, iv.2 = refVal (toString l.producer) l.slot) :
    ∀ kv ∈ m, ∀ iv ∈ kv.2.inputs, isRefShape iv.2 = false ∨
      ∃ l ∈ links, iv.2 = refVal (toString l.producer) l.slot := by
  induction nodes generalizing acc with
  | nil =>
      simp only [compileGraph, Option.some.injEq] at h
      rw [← h]
      exact hacc
  | cons n0 rest ih =>
      rw [compileGraph] at h
      cases hc : compileNode links n0 with
      | none => rw [hc] at h; exact absurd h (by simp)
      | some e0 =>
          rw [hc] at h
          refine ih _ h (fun n hn => hwid n (List.mem_cons_of_mem _ hn)) ?_
          intro kv hkv iv hiv
          rcases mem_upsert _ _ _ _ hkv with hold | hnew
          · exact hacc kv hold iv hiv
          · have he0 := compileNode_values links n0 e0 hc (hwid n0 (List.mem_cons_self _ _))
            rw [hnew] at hiv
            exact he0 iv hiv

theorem compileGraph_keys_super (links : List Link) (nodes : List RawNode) (acc m : FlatGraph)
    (h : compileGraph links nodes acc = some m) :
    (∀ k ∈ acc.map Prod.fst, k ∈ m.map Prod.fst)
    ∧ ∀ n ∈ nodes, toString n.id ∈ m.map Prod.fst := by
  induction nodes generalizing acc with
  | nil =>
      simp only [compileGraph, Option.some.injEq] at h
      rw [← h]
      exact ⟨fun k hk => hk, fun n hn => absurd hn (List.not_mem_nil n)⟩
  | cons n0 rest ih =>
      rw [compileGraph] at h
      cases hc : compileNode links n0 with
      | none => rw [hc] at h; exact absurd h (by simp)
      | some e0 =>
          rw [hc] at h
          rcases ih _ h with ⟨hsup, hrest⟩
          constructor
          · intro k hk
            exact hsup k ((mem_keys_upsert acc (toString n0.id) k e0).mpr (Or.inl hk))
          · intro n hn
            rcases List.mem_cons.mp hn with heq | hn'
            · subst heq
              exact hsup _ ((mem_keys_upsert acc (toString n.id) (toString n.id) e0).mpr
                (Or.inr rfl))
            · exact hrest n hn'

theorem unetOverride_keys (p : FlatGraph) :
    (unetOverride p).map Prod.fst = p.map Prod.fst := by
  induction p with
  | nil => rfl
  | cons kv rest ih =>
      by_cases h : kv.2.class_type = some "UnetLoaderGGUF" ∧
          (alookup kv.2.inputs "unet_name").isSome = true
      · simp [unetOverride, h] at ih ⊢
        exact ih
      · simp [unetOverride, h] at ih ⊢
        exact ih

theorem unetOverride_mem (p : FlatGraph) (kv : String × FlatNode) (h : kv ∈ unetOverride p) :
    ∃ kv0 ∈ p, ∀ iv ∈ kv.2.inputs, iv ∈ kv0.2.inputs ∨ isRefShape iv.2 = false := by
  simp only [unetOverride, List.mem_map] at h
  rcases h with ⟨kv0, hmem, heq⟩
  by_cases hc : kv0.2.class_type = some "UnetLoaderGGUF" ∧
      (alookup kv0.2.inputs "unet_name").isSome = true
  · rw [if_pos hc] at heq
    refine ⟨kv0, hmem, ?_⟩
    intro iv hiv
    rw [← heq] at hiv
    simp only at hiv
    rcases mem_upsert _ _ _ _ hiv with hold | hnew
    · left; exact hold
    · right; rw [hnew]; rfl
  · rw [if_neg hc] at heq
    refine ⟨kv0, hmem, ?_⟩
    intro iv hiv
    rw [← heq] at hiv
    left
    exact hiv

theorem findClipLoader_mem (p : FlatGraph) (cid : String) (h : findClipLoader p = some cid) :
    cid ∈ p.map Prod.fst := by
  simp only [findClipLoader, Option.map_eq_some'] at h
  rcases h with ⟨kv, hfind, hfst⟩
  rw [← hfst]
  exact List.mem_map_of_mem _ (List.mem_of_find?_eq_some hfind)

theorem negSynth_no_dangling (p : FlatGraph) (negId : String)
    (hp : ∀ kv ∈ p, ∀ iv ∈ kv.2.inputs, isRefShape iv.2 = true →
      refProducer iv.2 ∈ p.map Prod.fst) :
    ∀ kv ∈ negSynth p negId, ∀ iv ∈ kv.2.inputs, isRefShape iv.2 = true →
      refProducer iv.2 ∈ (negSynth p negId).map Prod.fst := by
  cases hf : findClipLoader p with
  | none =>
      simp only [negSynth, hf]
      exact hp
  | some cid =>
      have hcid : cid ∈ p.map Prod.fst := findClipLoader_mem p cid hf
      intro kv hkv iv hiv href
      simp only [negSynth, hf] at hkv ⊢
      rcases mem_upsert _ _ _ _ hkv with hold | hnew
      · exact (mem_keys_upsert p negId _ _).mpr (Or.inl (hp kv hold iv hiv href))
      · rw [hnew] at hiv
        simp only [List.mem_cons, List.not_mem_nil, or_false] at hiv
        rcases hiv with hclip | htext
        · have hpr : refProducer iv.2 = cid := by rw [hclip]; rfl
          rw [hpr]
          exact (mem_keys_upsert p negId cid _).mpr (Or.inl hcid)
        · rw [htext] at href
          exact absurd href (by decide)

theorem noDanglingFlat_eq_true (p : FlatGraph)
    (h : ∀ kv ∈ p, ∀ iv ∈ kv.2.inputs, isRefShape iv.2 = true →
      refProducer iv.2 ∈ p.map Prod.fst) :
    noDanglingFlat p = true := by
  rw [noDanglingFlat, List.all_eq_true]
  intro kv hkv
  rw [List.all_eq_true]
  intro iv hiv
  by_cases hr : isRefShape iv.2 = true
  · have := h kv hkv iv hiv hr
    simp [hr, flatKeys, this]
  · have hr' : isRefShape iv.2 = false := by simpa using hr
    simp [hr']

/-! Claims about the pipeline output. -/

/-- C3 counterexample: the raw graph g28 has no dangling links at all, yet
the full pipeline output contains dangling references: the forced wiring
targets the existing node 28 and binds its vae, positive and negative
inputs to the ids 53, 9 and 29, none of which is a key of the output. -/
theorem pipeline_dangling_cex :
    linkResolvable g28 = true
    ∧ pipeline g28 = some p28
    ∧ noDanglingFlat p28 = false :=
  ⟨rfl, rfl, rfl⟩

/-- C3 (amended): for a raw graph with no dangling links (every declared
link id resolves and every table entry names an existing producer node) and
widget literals that are not reference-shaped, the pipeline output up to
and including the field override and the node synthesis contains no
dangling reference; the final forced-wiring hook does not preserve this,
since a set_link call may bind an existing node to a producer id absent
from the map. -/
theorem prewire_no_dangling (g : RawGraph)
    (hres : linkResolvable g = true)
    (hprod : ∀ l ∈ g.links, toString l.producer ∈ g.nodes.map (fun n => toString n.id))
    (hwid : ∀ n ∈ g.nodes, widgetsNoRef n.widgets = true)
    (hne : g.nodes.isEmpty = false) :
    ∃ p negId, pipelinePreWire g = some (p, negId) ∧ noDanglingFlat p = true := by
  have hiff := compile_isSome_eq g
  rw [hres] at hiff
  cases hc : compile g with
  | none => rw [hc] at hiff; simp at hiff
  | some m =>
      cases hmx : maxId? g.nodes with
      | none =>
          cases hnodes : g.nodes with
          | nil => rw [hnodes] at hne; exact absurd hne (by simp)
          | cons n0 rest => rw [hnodes] at hmx; simp [maxId?] at hmx
      | some mx =>
          have hpipe : pipelinePreWire g =
              some (negSynth (unetOverride m) (toString (mx + 1)), toString (mx + 1)) := by
            simp [pipelinePreWire, hc, hmx]
          refine ⟨negSynth (unetOverride m) (toString (mx + 1)), toString (mx + 1), hpipe, ?_⟩
          apply noDanglingFlat_eq_true
          apply negSynth_no_dangling
          intro kv hkv iv hiv href
          rw [unetOverride_keys m]
          rcases unetOverride_mem m kv hkv with ⟨kv0, hmem0, hval⟩
          rcases hval iv hiv with hold | hnotref
          · have hvals := compileGraph_mem_values g.links g.nodes [] m hc hwid
              (by intro kv2 hkv2; simp at hkv2) kv0 hmem0 iv hold
            rcases hvals with hnr | ⟨l, hlmem, hveq⟩
            · rw [hnr] at href
              exact absurd href (by simp)
            · have hpr : refProducer iv.2 = toString l.producer := by rw [hveq]; rfl
              rw [hpr]
              rcases List.mem_map.mp (hprod l hlmem) with ⟨n, hn, hneq⟩
              rw [← hneq]
              exact (compileGraph_keys_super g.links g.nodes [] m hc).2 n hn
          · rw [hnotref] at href
            exact absurd href (by simp)

/-- C3 witness: the well-formed graph gW3 passes the pre-wiring pipeline
with no dangling reference in the output. -/
theorem prewire_no_dangling_witness :
    ∃ p negId, pipelinePreWire gW3 = some (p, negId) ∧ noDanglingFlat p = true :=
  prewire_no_dangling gW3 rfl (by decide) (by decide) rfl
